import Mathlib

/-!
# Verification of the itertools lazy sequence combinators

This file embeds the operators of the `itertools` Go module (packages
`itertools` and `to`) over finite sources, modelled as Lean lists.

A Go `iter.Seq[T]` is a push sequence: a function receiving a per-element
callback (`yield`) that it invokes in order until exhaustion or until the
callback returns `false`.  Operators such as `TakeN`, `SkipN`, `PairWise`,
`Zip` and `Deduplicate` adapt their source through `iter.Pull` into a pull
cursor whose `next()` call resumes the source until it produces one more
element (or reports exhaustion).  For a finite source, a cursor over the
source is exactly a list: a successful `next()` is an uncons, and the number
of elements the source has *produced* is the number of successful `next()`
calls (for pull-adapted operators) or the number of iterations of the
operator's range loop (for single-pass operators).

Each definition below is translated from one function of the repository.
Where a claim is about early-stop accounting, the consumer is modelled by a
budget `k`: the downstream `yield` delivers its element, and returns `false`
exactly when the element just delivered is the `k`-th one (the consumer
stops after receiving element `k`).  Each instrumented `...Run` function
returns the list of delivered elements together with the number of elements
the source produced during the run.
-/

namespace Itertools

/-- Translated from `Zip` (package `itertools`): repeatedly fetch one element
from each cursor; return as soon as either fetch fails; otherwise yield the
pair.  The full-drain run (consumer never stops early) additionally counts
the elements produced by each source: a successful `next1()` counts one
production of the first source, a successful `next2()` one of the second. -/
def zipRun {T V : Type} : List T → List V → List (T × V) × Nat × Nat
  | [], _ => ([], 0, 0)
  | _ :: _, [] => ([], 1, 0)
  | t :: a, v :: b =>
    ((t, v) :: (zipRun a b).1, (zipRun a b).2.1 + 1, (zipRun a b).2.2 + 1)

/-- The elements emitted by `Zip` on a full drain. -/
def Zip {T V : Type} (a : List T) (b : List V) : List (T × V) :=
  (zipRun a b).1

/-- Translated from the loop of `PairWise` (package `itertools`) with a
consumer that never stops: fetch `cur`; if exhausted return; yield
`(prev, cur)`; continue with `prev := cur`. -/
def pairWiseAll {T : Type} (prev : T) : List T → List (T × T)
  | [] => []
  | cur :: rest => (prev, cur) :: pairWiseAll cur rest

/-- Translated from `PairWise` (package `itertools`), full drain: fetch the
first element as `prev` (empty source yields nothing), then run the loop. -/
def PairWise {T : Type} : List T → List (T × T)
  | [] => []
  | prev :: rest => pairWiseAll prev rest

theorem pairWiseAll_spec {T : Type} :
    ∀ (rest : List T) (prev : T),
      (pairWiseAll prev rest).length = rest.length
      ∧ ∀ i : Nat, (pairWiseAll prev rest)[i]? =
          ((prev :: rest)[i]?).bind (fun x => (rest[i]?).map (fun y => (x, y)))
  | [], prev => by
    refine ⟨rfl, fun i => ?_⟩
    cases i <;> simp [pairWiseAll]
  | cur :: rest, prev => by
    refine ⟨by simp [pairWiseAll, (pairWiseAll_spec rest cur).1], fun i => ?_⟩
    cases i with
    | zero => simp [pairWiseAll]
    | succ j => simpa [pairWiseAll] using (pairWiseAll_spec rest cur).2 j

/-- C2: for every finite source `xs`, `PairWise` yields exactly
`xs.length - 1` pairs (which is `max (L-1) 0` by truncated subtraction), and
the `i`-th pair is `(xs[i], xs[i+1])`; sources of length 0 or 1 yield no
pairs. -/
theorem pairWise_pairs {T : Type} (xs : List T) :
    (PairWise xs).length = xs.length - 1
    ∧ ∀ i : Nat, (PairWise xs)[i]? =
        (xs[i]?).bind (fun x => (xs[i + 1]?).map (fun y => (x, y))) := by
  cases xs with
  | nil =>
    refine ⟨rfl, fun i => ?_⟩
    simp [PairWise]
  | cons prev rest =>
    refine ⟨by simp [PairWise, (pairWiseAll_spec rest prev).1], fun i => ?_⟩
    simpa [PairWise] using (pairWiseAll_spec rest prev).2 i

/-- C1: `Zip` yields exactly `min (len a) (len b)` pairs and the `i`-th
pair is `(a[i], b[i])`; the indexing equation holds for every index `i`,
with both sides empty past the end, so iteration stops as soon as either
source is exhausted. -/
theorem zip_pairs {T V : Type} :
    ∀ (a : List T) (b : List V),
      (Zip a b).length = min a.length b.length
      ∧ ∀ i : Nat, (Zip a b)[i]? =
          (a[i]?).bind (fun x => (b[i]?).map (fun y => (x, y)))
  | [], b => by
    refine ⟨by simp [Zip, zipRun], fun i => ?_⟩
    simp [Zip, zipRun]
  | t :: a, [] => by
    refine ⟨by simp [Zip, zipRun], fun i => ?_⟩
    cases i <;> simp [Zip, zipRun]
  | t :: a, v :: b => by
    refine ⟨?_, fun i => ?_⟩
    · have h := (zip_pairs a b).1
      simp only [Zip] at h
      simp [Zip, zipRun, h]
      omega
    · cases i with
      | zero => simp [Zip, zipRun]
      | succ j => simpa [Zip, zipRun] using (zip_pairs a b).2 j

/-- C10: on a full drain of `Zip`, the production counts of the two sources
are: `(len b + 1, len b)` when the first source is strictly longer (the one
extra lookahead draw falls on the first source), and `(len a, len a)`
otherwise — in particular no element of the second source beyond position
`len a` is ever drawn. -/
theorem zip_draws {T V : Type} :
    ∀ (a : List T) (b : List V),
      (zipRun a b).2 =
        if b.length < a.length then (b.length + 1, b.length)
        else (a.length, a.length)
  | [], b => by simp [zipRun]
  | t :: a, [] => by simp [zipRun]
  | t :: a, v :: b => by
    have h := zip_draws a b
    by_cases hl : b.length < a.length <;>
      simp [zipRun, h, hl, Nat.succ_lt_succ_iff]

/-- Translated from the loop of `TakeN` (package `itertools`), consumer
never stopping: `for i := 0; i < n; i++ { t, ok := next(); if !ok return;
yield(t) }`.  Returns the emitted elements and the number of elements the
source produced (successful `next()` calls). -/
def takeNLoop {T : Type} : List T → Nat → List T × Nat
  | _, 0 => ([], 0)
  | [], _ + 1 => ([], 0)
  | x :: xs, n + 1 => ((x :: (takeNLoop xs n).1), (takeNLoop xs n).2 + 1)

/-- Translated from `TakeN` (package `itertools`): the loop runs `i` from
`0` while `i < n`, so a Go `int` bound `n ≤ 0` gives zero iterations, which
is `Int.toNat`. -/
def TakeN {T : Type} (xs : List T) (n : Int) : List T × Nat :=
  takeNLoop xs n.toNat

/-- C7: for every source and every `n ≤ 0`, `TakeN` emits no elements and
the source produces nothing — `next()` is never called, the source is
touched zero times. -/
theorem takeN_nonpos {T : Type} (xs : List T) (n : Int) (h : n ≤ 0) :
    TakeN xs n = ([], 0) := by
  have hz : n.toNat = 0 := Int.toNat_eq_zero.mpr h
  cases xs <;> simp [TakeN, hz, takeNLoop]

/-- Witness for `takeN_nonpos` at a concrete input. -/
theorem takeN_nonpos_witness : TakeN ([1, 2, 3] : List Nat) (-2) = ([], 0) :=
  takeN_nonpos [1, 2, 3] (-2) (by decide)

/-- Translated from `SkipN` (package `itertools`), consumer never stopping:
`for range n` discards one fetched element per iteration (returning early if
the source is exhausted first), then the second loop forwards every
remaining element.  A Go `for range n` over an `int` `n ≤ 0` performs zero
iterations, which is `Int.toNat`. -/
def skipNLoop {T : Type} : List T → Nat → List T
  | xs, 0 => xs
  | [], _ + 1 => []
  | _ :: xs, n + 1 => skipNLoop xs n

/-- The elements emitted by `SkipN` on a full drain. -/
def SkipN {T : Type} (xs : List T) (n : Int) : List T :=
  skipNLoop xs n.toNat

/-- C9: for every source `xs` and every `n ≤ 0` (including strictly
negative `n`), the skip loop performs zero iterations and `SkipN` forwards
exactly the elements of `xs`, unchanged and in order. -/
theorem skipN_nonpos {T : Type} (xs : List T) (n : Int) (h : n ≤ 0) :
    SkipN xs n = xs := by
  have hz : n.toNat = 0 := Int.toNat_eq_zero.mpr h
  cases xs <;> simp [SkipN, hz, skipNLoop]

/-- Witness for `skipN_nonpos` at a concrete input. -/
theorem skipN_nonpos_witness : SkipN ([5, 6] : List Nat) (-1) = [5, 6] :=
  skipN_nonpos [5, 6] (-1) (by decide)

/-- Translated from `Reduce` (package `to`): fold left-to-right; each step
applies the predicate to the running accumulator and the current element;
when the predicate reports `ok = false` the fold returns the accumulator
produced by that same call, otherwise it continues with it. -/
def Reduce {T : Type} : List T → T → (T → T → T × Bool) → T
  | [], startAccum, _ => startAccum
  | t :: rest, accum, predicate =>
    if (predicate accum t).2 then Reduce rest (predicate accum t).1 predicate
    else (predicate accum t).1

/-- Whether the predicate reports `ok = true` at every step of the fold
over the given list starting from the given accumulator. -/
def alwaysCont {T : Type} (predicate : T → T → T × Bool) : T → List T → Bool
  | _, [] => true
  | a, x :: xs => (predicate a x).2 && alwaysCont predicate (predicate a x).1 xs

theorem reduce_stops_aux {T : Type} (f : T → T → T × Bool) :
    ∀ (p : List T) (y : T) (rest : List T) (a : T),
      alwaysCont f a p = true →
      (f (p.foldl (fun b x => (f b x).1) a) y).2 = false →
      Reduce (p ++ y :: rest) a f = (f (p.foldl (fun b x => (f b x).1) a) y).1
  | [], y, rest, a => by
    intro _ hy
    simp only [List.foldl_nil] at hy ⊢
    simp [Reduce, hy]
  | x :: p, y, rest, a => by
    intro hc hy
    simp only [alwaysCont, Bool.and_eq_true] at hc
    simp only [List.foldl_cons] at hy ⊢
    simpa [Reduce, hc.1] using reduce_stops_aux f p y rest (f a x).1 hc.2 hy

theorem reduce_fold_aux {T : Type} (f : T → T → T × Bool)
    (h : ∀ b x, (f b x).2 = true) :
    ∀ (xs : List T) (a : T),
      Reduce xs a f = xs.foldl (fun b x => (f b x).1) a
  | [], a => rfl
  | x :: xs, a => by
    simpa [Reduce, h a x] using reduce_fold_aux f h xs (f a x).1

/-- C5: `Reduce` folds left-to-right and stops as soon as the step returns
`continue = false`, returning the accumulator produced by that same call
regardless of the remaining elements; and with a step that always continues
it equals the standard left fold of the step over the source. -/
theorem reduce_spec {T : Type} (f : T → T → T × Bool) :
    (∀ (p : List T) (y : T) (rest : List T) (a : T),
      alwaysCont f a p = true →
      (f (p.foldl (fun b x => (f b x).1) a) y).2 = false →
      Reduce (p ++ y :: rest) a f = (f (p.foldl (fun b x => (f b x).1) a) y).1)
    ∧ ((∀ b x, (f b x).2 = true) →
      ∀ (xs : List T) (a : T),
        Reduce xs a f = xs.foldl (fun b x => (f b x).1) a) :=
  ⟨reduce_stops_aux f, fun h => reduce_fold_aux f h⟩

/-- Witness for `reduce_spec`: with step `(a, x) ↦ (a + x, a + x < 10)`,
source `[1, 2, 3] ++ 4 :: [100]` and initial accumulator `0`, folding stops
at `y = 4` with accumulator `10`, ignoring the trailing `100`. -/
theorem reduce_spec_witness :
    Reduce ([1, 2, 3] ++ 4 :: [100]) 0
        (fun a x => (a + x, decide (a + x < 10))) = 10 := by
  have h := (reduce_spec (fun a x : Nat => (a + x, decide (a + x < 10)))).1
    [1, 2, 3] 4 [100] 0 (by decide) (by decide)
  simpa using h

/-- Translated from the loop of `Min` (package `to`): state is the running
extreme `m` and the `init` flag; the first element initialises `m`, each
later element updates it with the builtin `min`. -/
def minLoop {T : Type} [LinearOrder T] : T × Bool → List T → T × Bool
  | s, [] => s
  | s, t :: rest =>
    if s.2 then minLoop (min s.1 t, true) rest else minLoop (t, true) rest

/-- Translated from `Min` (package `to`): `m` starts at the zero value of
the element type (passed here explicitly as `zero`) and `init` at `false`;
returns the running minimum and whether at least one value was consumed. -/
def Min {T : Type} [LinearOrder T] (zero : T) (src : List T) : T × Bool :=
  minLoop (zero, false) src

/-- Translated from the loop of `Max` (package `to`), dual to `minLoop`. -/
def maxLoop {T : Type} [LinearOrder T] : T × Bool → List T → T × Bool
  | s, [] => s
  | s, t :: rest =>
    if s.2 then maxLoop (max s.1 t, true) rest else maxLoop (t, true) rest

/-- Translated from `Max` (package `to`), dual to `Min`. -/
def Max {T : Type} [LinearOrder T] (zero : T) (src : List T) : T × Bool :=
  maxLoop (zero, false) src

theorem minLoop_init {T : Type} [LinearOrder T] :
    ∀ (xs : List T) (m : T), minLoop (m, true) xs = (xs.foldl min m, true)
  | [], m => rfl
  | t :: rest, m => by simp [minLoop, minLoop_init rest (min m t)]

theorem maxLoop_init {T : Type} [LinearOrder T] :
    ∀ (xs : List T) (m : T), maxLoop (m, true) xs = (xs.foldl max m, true)
  | [], m => rfl
  | t :: rest, m => by simp [maxLoop, maxLoop_init rest (max m t)]

theorem foldl_min_mem {T : Type} [LinearOrder T] :
    ∀ (xs : List T) (m : T), xs.foldl min m = m ∨ xs.foldl min m ∈ xs
  | [], m => Or.inl rfl
  | x :: xs, m => by
    rcases foldl_min_mem xs (min m x) with h | h
    · rcases min_choice m x with hm | hm
      · exact Or.inl (by rw [List.foldl_cons, h, hm])
      · exact Or.inr (by rw [List.foldl_cons, h, hm]; exact List.mem_cons_self x xs)
    · exact Or.inr (List.mem_cons_of_mem x h)

theorem foldl_max_mem {T : Type} [LinearOrder T] :
    ∀ (xs : List T) (m : T), xs.foldl max m = m ∨ xs.foldl max m ∈ xs
  | [], m => Or.inl rfl
  | x :: xs, m => by
    rcases foldl_max_mem xs (max m x) with h | h
    · rcases max_choice m x with hm | hm
      · exact Or.inl (by rw [List.foldl_cons, h, hm])
      · exact Or.inr (by rw [List.foldl_cons, h, hm]; exact List.mem_cons_self x xs)
    · exact Or.inr (List.mem_cons_of_mem x h)

theorem foldl_min_le {T : Type} [LinearOrder T] :
    ∀ (xs : List T) (m y : T), y = m ∨ y ∈ xs → xs.foldl min m ≤ y
  | [], m, y => by rintro (rfl | h)
                   · exact le_refl _
                   · simp at h
  | x :: xs, m, y => by
    have hinit : (x :: xs).foldl min m ≤ min m x := by
      rw [List.foldl_cons]
      rcases foldl_min_mem xs (min m x) with h | h
      · exact le_of_eq h
      · exact foldl_min_le xs (min m x) (min m x) (Or.inl rfl)
    rintro (rfl | h)
    · exact le_trans hinit (min_le_left _ _)
    · rcases List.mem_cons.mp h with rfl | h
      · exact le_trans hinit (min_le_right _ _)
      · exact foldl_min_le xs (min m x) y (Or.inr h)

theorem foldl_max_ge {T : Type} [LinearOrder T] :
    ∀ (xs : List T) (m y : T), y = m ∨ y ∈ xs → y ≤ xs.foldl max m
  | [], m, y => by rintro (rfl | h)
                   · exact le_refl _
                   · simp at h
  | x :: xs, m, y => by
    have hinit : max m x ≤ (x :: xs).foldl max m := by
      rw [List.foldl_cons]
      rcases foldl_max_mem xs (max m x) with h | h
      · exact ge_of_eq h
      · exact foldl_max_ge xs (max m x) (max m x) (Or.inl rfl)
    rintro (rfl | h)
    · exact le_trans (le_max_left _ _) hinit
    · rcases List.mem_cons.mp h with rfl | h
      · exact le_trans (le_max_right _ _) hinit
      · exact foldl_max_ge xs (max m x) y (Or.inr h)

/-- C8: `Min` (resp. `Max`) reports `ok = false` exactly when the source is
empty, in which case the returned value is the element type's zero value;
on a non-empty source it returns the minimum (resp. maximum) element with
`ok = true` — absence of a value is reported only through that flag, there
is no error channel in the signature. -/
theorem min_max_spec {T : Type} [LinearOrder T] (zero : T) (xs : List T) :
    ((Min zero xs).2 = false ↔ xs = [])
    ∧ (xs = [] → (Min zero xs).1 = zero)
    ∧ (xs ≠ [] → (Min zero xs).1 ∈ xs ∧ ∀ y ∈ xs, (Min zero xs).1 ≤ y)
    ∧ ((Max zero xs).2 = false ↔ xs = [])
    ∧ (xs = [] → (Max zero xs).1 = zero)
    ∧ (xs ≠ [] → (Max zero xs).1 ∈ xs ∧ ∀ y ∈ xs, y ≤ (Max zero xs).1) := by
  cases xs with
  | nil => simp [Min, Max, minLoop, maxLoop]
  | cons x xs =>
    have hmin : Min zero (x :: xs) = (xs.foldl min x, true) := by
      simp [Min, minLoop, minLoop_init]
    have hmax : Max zero (x :: xs) = (xs.foldl max x, true) := by
      simp [Max, maxLoop, maxLoop_init]
    refine ⟨by simp [hmin], by simp, fun _ => ⟨?_, fun y hy => ?_⟩,
      by simp [hmax], by simp, fun _ => ⟨?_, fun y hy => ?_⟩⟩
    · rw [hmin]
      rcases foldl_min_mem xs x with h | h
      · simp [h]
      · exact List.mem_cons_of_mem x h
    · rw [hmin]
      exact foldl_min_le xs x y (by simpa using List.mem_cons.mp hy)
    · rw [hmax]
      rcases foldl_max_mem xs x with h | h
      · simp [h]
      · exact List.mem_cons_of_mem x h
    · rw [hmax]
      exact foldl_max_ge xs x y (by simpa using List.mem_cons.mp hy)

/-- Witness for `min_max_spec` at a concrete input: the minimum of the
non-empty source `[2, 1, 3]` is one of its elements. -/
theorem min_max_spec_witness :
    (Min (0 : Nat) [2, 1, 3]).1 ∈ ([2, 1, 3] : List Nat) :=
  ((min_max_spec (0 : Nat) [2, 1, 3]).2.2.1 (by decide)).1

/-- Translated from `Map` (package `itertools`) run against a consumer that
stops after receiving its `k`-th element (budget `b`): each loop iteration
is one element produced by the source; the transformed element is delivered,
and when the budget is exhausted by this delivery the consumer's `yield`
returns `false` and `Map` returns, stopping the source.  Returns the
delivered elements and the number of source elements produced. -/
def mapRun {T V : Type} (predicate : T → V) : List T → Nat → List V × Nat
  | [], _ => ([], 0)
  | x :: xs, b =>
    if b ≤ 1 then ([predicate x], 1)
    else ((predicate x :: (mapRun predicate xs (b - 1)).1),
      (mapRun predicate xs (b - 1)).2 + 1)

/-- Translated from `Filter` (package `itertools`) run against a consumer
that stops after receiving its `k`-th element (budget `b`): every loop
iteration is one element produced by the source, whether or not the
predicate forwards it; elements failing the predicate are skipped with
`continue`. -/
def filterRun {T : Type} (predicate : T → Bool) : List T → Nat → List T × Nat
  | [], _ => ([], 0)
  | x :: xs, b =>
    if predicate x then
      if b ≤ 1 then ([x], 1)
      else ((x :: (filterRun predicate xs (b - 1)).1),
        (filterRun predicate xs (b - 1)).2 + 1)
    else ((filterRun predicate xs b).1, (filterRun predicate xs b).2 + 1)

/-- Translated from the loop of `PairWise` (package `itertools`) run against
a consumer that stops after receiving its `b`-th pair: fetch `cur` (one
production), deliver `(prev, cur)`, stop if the budget is exhausted,
otherwise continue with `prev := cur`. -/
def pairWiseLoop {T : Type} (prev : T) : List T → Nat → List (T × T) × Nat
  | [], _ => ([], 0)
  | cur :: rest, b =>
    if b ≤ 1 then ([(prev, cur)], 1)
    else (((prev, cur) :: (pairWiseLoop cur rest (b - 1)).1),
      (pairWiseLoop cur rest (b - 1)).2 + 1)

/-- Translated from `PairWise` (package `itertools`) run against a consumer
that stops after receiving its `k`-th pair: the initial fetch of `prev` is
one production (when the source is non-empty), then the loop runs. -/
def pairWiseRun {T : Type} (xs : List T) (k : Nat) : List (T × T) × Nat :=
  match xs with
  | [] => ([], 0)
  | prev :: rest =>
    ((pairWiseLoop prev rest k).1, (pairWiseLoop prev rest k).2 + 1)

theorem mapRun_draws {T V : Type} (f : T → V) :
    ∀ (xs : List T) (k : Nat), 1 ≤ k → k ≤ xs.length →
      (mapRun f xs k).2 = k
  | [], k => by intro h1 h2; simp at h2; omega
  | x :: xs, k => by
    intro h1 h2
    by_cases hb : k ≤ 1
    · have : k = 1 := by omega
      simp [mapRun, hb, this]
    · have hrec := mapRun_draws f xs (k - 1) (by omega)
        (by simp at h2; omega)

      simp [mapRun, hb, hrec]
      omega

theorem pairWiseLoop_draws {T : Type} :
    ∀ (rest : List T) (prev : T) (b : Nat), 1 ≤ b → b ≤ rest.length →
      (pairWiseLoop prev rest b).2 = b
  | [], prev, b => by intro h1 h2; simp at h2; omega
  | cur :: rest, prev, b => by
    intro h1 h2
    by_cases hb : b ≤ 1
    · have : b = 1 := by omega
      simp [pairWiseLoop, hb, this]
    · have hrec := pairWiseLoop_draws rest cur (b - 1) (by omega)
        (by simp at h2; omega)
      simp [pairWiseLoop, hb, hrec]
      omega

theorem filterRun_draws {T : Type} (p : T → Bool) :
    ∀ (xs : List T) (k : Nat), 1 ≤ k → k ≤ xs.countP p →
      1 ≤ (filterRun p xs k).2
      ∧ (xs.take (filterRun p xs k).2).countP p = k
      ∧ ∃ z, xs[(filterRun p xs k).2 - 1]? = some z ∧ p z = true
  | [], k => by intro h1 h2; simp [List.countP_nil] at h2; omega
  | x :: xs, k => by
    intro h1 h2
    by_cases hp : p x
    · by_cases hb : k ≤ 1
      · have hk : k = 1 := by omega
        refine ⟨by simp [filterRun, hp, hb], ?_, ⟨x, ?_, hp⟩⟩
        · simp [filterRun, hp, hb, hk, List.countP_cons, List.take_succ]
        · simp [filterRun, hp, hb]
      · have hcnt : k - 1 ≤ xs.countP p := by
          rw [List.countP_cons_of_pos p xs hp] at h2; omega
        obtain ⟨hn1, hcp, z, hz, hpz⟩ :=
          filterRun_draws p xs (k - 1) (by omega) hcnt
        have heq : (filterRun p (x :: xs) k).2 =
            (filterRun p xs (k - 1)).2 + 1 := by
          simp [filterRun, hp, hb]
        refine ⟨by omega, ?_, ⟨z, ?_, hpz⟩⟩
        · rw [heq, List.take_succ_cons]
          simp [List.countP_cons, hp, hcp]
          omega
        · rw [heq]
          obtain ⟨m, hm⟩ : ∃ m, (filterRun p xs (k - 1)).2 = m + 1 :=
            ⟨(filterRun p xs (k - 1)).2 - 1, by omega⟩
          rw [hm]
          simpa [hm] using hz
    · have hcnt : k ≤ xs.countP p := by
        rw [List.countP_cons_of_neg p xs hp] at h2; omega
      obtain ⟨hn1, hcp, z, hz, hpz⟩ := filterRun_draws p xs k h1 hcnt
      have heq : (filterRun p (x :: xs) k).2 = (filterRun p xs k).2 + 1 := by
        simp [filterRun, hp]
      refine ⟨by omega, ?_, ⟨z, ?_, hpz⟩⟩
      · rw [heq, List.take_succ_cons]
        simp [List.countP_cons, hp, hcp]
      · rw [heq]
        obtain ⟨m, hm⟩ : ∃ m, (filterRun p xs k).2 = m + 1 :=
          ⟨(filterRun p xs k).2 - 1, by omega⟩
        rw [hm]
        simpa [hm] using hz

theorem pairWiseRun_draws_aux {T : Type} (xs : List T) (k : Nat)
    (h1 : 1 ≤ k) (h2 : k + 1 ≤ xs.length) : (pairWiseRun xs k).2 = k + 1 := by
  cases xs with
  | nil => simp at h2
  | cons prev rest =>
    have h := pairWiseLoop_draws rest prev k h1 (by simp at h2; omega)
    simp [pairWiseRun, h]

/-- C3 counterexample: a consumer of `Filter([1, 2], isEven)` that stops
after receiving the 1st emitted element (the value `2`) has caused the
source to produce 2 elements, not 1 — the filtered-out element `1` was also
produced. -/
theorem early_stop_filter_counterexample :
    (filterRun (fun x => x % 2 == 0) [1, 2] 1).2 ≠ 1 := by decide

/-- C3 (amended): if a consumer of a Map-wrapped sequence stops after
receiving the `k`-th element, the source has produced exactly `k` elements;
if a consumer of a Filter-wrapped sequence stops after receiving the `k`-th
emitted element, the source has produced exactly the prefix ending at the
`k`-th element satisfying the predicate (that prefix contains exactly `k`
matches and its last element is a match — no read-ahead past it); if a
consumer of PairWise stops after receiving the `k`-th pair, the source has
produced exactly `k + 1` elements. -/
theorem early_stop_draws {T V : Type} (f : T → V) (p : T → Bool)
    (xs : List T) (k : Nat) (hk : 1 ≤ k) :
    (k ≤ xs.length → (mapRun f xs k).2 = k)
    ∧ (k ≤ xs.countP p →
        1 ≤ (filterRun p xs k).2
        ∧ (xs.take (filterRun p xs k).2).countP p = k
        ∧ ∃ z, xs[(filterRun p xs k).2 - 1]? = some z ∧ p z = true)
    ∧ (k + 1 ≤ xs.length → (pairWiseRun xs k).2 = k + 1) :=
  ⟨fun h => mapRun_draws f xs k hk h,
   fun h => filterRun_draws p xs k hk h,
   fun h => pairWiseRun_draws_aux xs k hk h⟩

/-- Witness for `early_stop_draws` at a concrete input: stopping a
Map-wrapped `[1, 2, 3, 4]` after its 2nd element draws exactly 2 source
elements. -/
theorem early_stop_draws_witness :
    (mapRun (fun n : Nat => n * 2) [1, 2, 3, 4] 2).2 = 2 :=
  (early_stop_draws (fun n : Nat => n * 2) (fun n => n % 2 == 0)
    [1, 2, 3, 4] 2 (by decide)).1 (by decide)

/-- C4 counterexample: a consumer that stops `PairWise([10, 20, 30, 40])`
after receiving pair 1 has caused the source to produce 2 elements, not
`1 + 2 = 3`: there is no extra lookahead element. -/
theorem pairwise_extra_counterexample :
    ¬((pairWiseRun ([10, 20, 30, 40] : List Nat) 1).2 = 1 + 2) := by decide

/-- C4 (amended): a consumer that stops PairWise after receiving the `k`-th
pair has caused the source to produce exactly `k + 1` elements — the second
component of that pair and nothing beyond it; PairWise holds no extra
element ahead of what it has forwarded at any stopping point. -/
theorem pairwise_stop_produces {T : Type} (xs : List T) (k : Nat)
    (h1 : 1 ≤ k) (h2 : k + 1 ≤ xs.length) : (pairWiseRun xs k).2 = k + 1 :=
  pairWiseRun_draws_aux xs k h1 h2

/-- Witness for `pairwise_stop_produces` at a concrete input. -/
theorem pairwise_stop_produces_witness :
    (pairWiseRun ([10, 20, 30, 40] : List Nat) 2).2 = 3 :=
  pairwise_stop_produces [10, 20, 30, 40] 2 (by decide) (by decide)

/-- Translated from the loop of `Deduplicate` (package `itertools`), full
drain: fetch `t`; if it equals `prev`, `continue` without forwarding;
otherwise set `prev := t` and forward `t`. -/
def dedupLoop {T : Type} [DecidableEq T] (prev : T) : List T → List T
  | [] => []
  | t :: rest => if t = prev then dedupLoop prev rest else t :: dedupLoop t rest

/-- Translated from `Deduplicate` (package `itertools`), full drain: the
first element is forwarded unconditionally (empty source yields nothing),
then the loop collapses consecutive runs of equal elements. -/
def Deduplicate {T : Type} [DecidableEq T] : List T → List T
  | [] => []
  | prev :: rest => prev :: dedupLoop prev rest

theorem dedupLoop_idem {T : Type} [DecidableEq T] :
    ∀ (xs : List T) (prev : T),
      dedupLoop prev (dedupLoop prev xs) = dedupLoop prev xs
  | [], _ => rfl
  | t :: rest, prev => by
    by_cases h : t = prev
    · simp [dedupLoop, h, dedupLoop_idem rest prev]
    · simp [dedupLoop, h, dedupLoop_idem rest t]

/-- C6: `Deduplicate` is idempotent — applying it twice yields the same
elements in the same order as applying it once. -/
theorem deduplicate_idem {T : Type} [DecidableEq T] (s : List T) :
    Deduplicate (Deduplicate s) = Deduplicate s := by
  cases s with
  | nil => rfl
  | cons prev rest => simp [Deduplicate, dedupLoop_idem rest prev]

end Itertools
